import Mathlib

/- Shallow embedding of ts-dom-helper (`src/index.ts` and `src/interpolate.ts`).
   A DOM element is a record of its class list, its parsed `style.opacity`,
   its remaining attributes and its inner markup; a document is a finite
   element tree; CSS selector matching is an abstract boolean predicate
   (the host engine) passed as a parameter; the recurring timer of the two
   fade animations is modelled by tick-indexed iteration of the tick body. -/

/-- A DOM element as the library observes it: the class list (`classList`),
the parsed `style.opacity` (`none` = unset or unparseable), the remaining
attributes, and the inner markup (`innerHTML`). -/
structure Elem where
  classes : List String
  styleOpacity : Option ℚ
  attrs : List (String × String)
  inner : String
deriving DecidableEq

/-- The well-known hidden class toggled by `hide`/`show` (`'d-none'`). -/
def hiddenClass : String := "d-none"

/-- `hide` on a single element: `element.classList.add('d-none')`.
`DOMTokenList.add` appends the token unless it is already present. -/
def hideElem (e : Elem) : Elem :=
  { e with classes := if hiddenClass ∈ e.classes then e.classes else e.classes ++ [hiddenClass] }

/-- `show` on a single element: `element.classList.remove('d-none')`.
`DOMTokenList.remove` drops every occurrence of the token. -/
def showElem (e : Elem) : Elem :=
  { e with classes := e.classes.filter (fun c => c != hiddenClass) }

/-- `hide` applied to the `i`-th node of a flat store of all document
nodes, leaving every other node alone (store view for frame reasoning). -/
def hideAt : List Elem → Nat → List Elem
  | [], _ => []
  | e :: es, 0 => hideElem e :: es
  | e :: es, n + 1 => e :: hideAt es n

/-- `show` applied to the `i`-th node of a flat store of all document
nodes, leaving every other node alone. -/
def showAt : List Elem → Nat → List Elem
  | [], _ => []
  | e :: es, 0 => showElem e :: es
  | e :: es, n + 1 => e :: showAt es n

/-- A document (sub)tree: an element together with its children in order. -/
inductive DomTree where
  | node (elem : Elem) (children : List DomTree)

mutual

/-- Preorder (document-order) traversal of a tree. -/
def allNodes : DomTree → List Elem
  | .node e cs => e :: allNodesList cs

/-- Preorder (document-order) traversal of a forest. -/
def allNodesList : List DomTree → List Elem
  | [] => []
  | t :: ts => allNodes t ++ allNodesList ts

end

/-- The descendants of a scope element in document order (the scope element
itself excluded, as for `querySelectorAll`). -/
def descendantsOf : DomTree → List Elem
  | .node _ cs => allNodesList cs

/-- `fromElement.querySelectorAll(selector)` (`findAll`): all matching
descendants in document order. `sem` is the host CSS engine: `sem s e`
decides whether element `e` matches selector string `s`. -/
def querySelectorAll (sem : String → Elem → Bool) (s : String) (scope : DomTree) : List Elem :=
  (descendantsOf scope).filter (sem s)

/-- `find`: `fromElement.querySelector(selector)` — the first matching
descendant in document order, or `none` (`null`). Total by construction:
it never raises. -/
def find (sem : String → Elem → Bool) (s : String) (scope : DomTree) : Option Elem :=
  (querySelectorAll sem s scope).head?

/-- The errors the embedded operations can produce: the explicit throw of
`get` (`NotFound`), and the host-level reference / syntax errors raised
while a template string is evaluated. -/
inductive Err where
  | notFound (msg : String)
  | refError (x : String)
  | malformed
deriving DecidableEq

/-- The message of the error thrown by `get`:
`The "<selector>" element was not found`. -/
def notFoundMsg (s : String) : String := "The \"" ++ s ++ "\" element was not found"

/-- `get`: like `find`, but throws the `NotFound` error (with the selector
text in the message) when no element matches. (Named `getEl` here because
`get` is ambiguous in Lean.) -/
def getEl (sem : String → Elem → Bool) (s : String) (scope : DomTree) : Except Err Elem :=
  match find sem s scope with
  | some e => .ok e
  | none => .error (.notFound (notFoundMsg s))

/-- The polymorphic `HTMLElements` input of the library, as the runtime
classifies it: a single element (`instanceof Element`), a selector string,
an iterable collection (array or node list), or anything else. -/
inductive ElementsInput where
  | single (e : Elem)
  | iterable (es : List Elem)
  | selector (s : String)
  | other

/-- `elementMap(elements, callback)`: a single element is wrapped as a
one-element list; a string is resolved through `findAll` against the
document body; an iterable is traversed in its native order; anything else
yields no iterations.  `body` is the `document.body` tree. -/
def elementMap {β : Type} (sem : String → Elem → Bool) (body : DomTree)
    (input : ElementsInput) (f : Elem → β) : List β :=
  match input with
  | .single e => [f e]
  | .selector s => (querySelectorAll sem s body).map f
  | .iterable es => es.map f
  | .other => []

/-- The sequence of nodes `elementMap` resolves its input to (the
spec-side normalization: `{Single, Sequence, Selector}` to a sequence). -/
def resolvedNodes (sem : String → Elem → Bool) (body : DomTree) : ElementsInput → List Elem
  | .single e => [e]
  | .selector s => querySelectorAll sem s body
  | .iterable es => es
  | .other => []

/-- A value a template parameter can carry (a number or a string). -/
inductive Val where
  | int (n : Int)
  | str (s : String)
deriving DecidableEq

/-- `String(v)`: the string rendering of a value. -/
def Val.toStr : Val → String
  | .int n => toString n
  | .str s => s

/-- The `+` of the template expression language: numeric addition on two
numbers, string concatenation (after rendering) otherwise. -/
def Val.addV : Val → Val → Val
  | .int a, .int b => .int (a + b)
  | a, b => .str (a.toStr ++ b.toStr)

/-- An expression occurring inside a `$\x7b...\x7d` substitution: an
integer literal, a parameter name, or a sum. Modelled from the spec: the
source evaluates the template with the host engine (`new Function`), whose
expression grammar is not part of this repository; this fragment covers
the expressions the specification describes. -/
inductive Expr where
  | lit (n : Int)
  | var (x : String)
  | add (a b : Expr)
deriving DecidableEq

/-- Parameter names occurring in an expression. -/
def exprVars : Expr → List String
  | .lit _ => []
  | .var x => [x]
  | .add a b => exprVars a ++ exprVars b

/-- First-match lookup of a parameter name in the environment built from
the keys and values of the `params` object. -/
def lookupVar (env : List (String × Val)) (x : String) : Option Val :=
  match env with
  | [] => none
  | (n, v) :: rest => if n == x then some v else lookupVar rest x

/-- Evaluation of a substitution expression; an undeclared name raises a
reference error carrying that name. -/
def evalExpr (env : List (String × Val)) : Expr → Except Err Val
  | .lit n => .ok (.int n)
  | .var x =>
    match lookupVar env x with
    | some v => .ok v
    | none => .error (.refError x)
  | .add a b =>
    match evalExpr env a with
    | .error er => .error er
    | .ok va =>
      match evalExpr env b with
      | .error er => .error er
      | .ok vb => .ok (va.addV vb)

/-- One piece of a scanned template: literal text or a substitution. -/
inductive Chunk where
  | lit (s : String)
  | expr (e : Expr)
deriving DecidableEq

/-- Parameter names occurring in a chunk. -/
def chunkVars : Chunk → List String
  | .lit _ => []
  | .expr e => exprVars e

/-- The opening brace character. -/
def lbraceChar : Char := Char.ofNat 123

/-- The closing brace character. -/
def rbraceChar : Char := Char.ofNat 125

/-- Splits a character list at the first closing brace (the characters
before it, and the rest after it); `none` when no closing brace occurs. -/
def breakBrace : List Char → Option (List Char × List Char)
  | [] => none
  | c :: rest =>
    if c = rbraceChar then some ([], rest)
    else
      match breakBrace rest with
      | some (a, r) => some (c :: a, r)
      | none => none

/-- A token of the substitution expression grammar. -/
inductive Tok where
  | ident (x : String)
  | num (n : Int)
  | plus
deriving DecidableEq

/-- First character of an identifier. -/
def isIdentStart (c : Char) : Bool := c.isAlpha || c = '_'

/-- Subsequent character of an identifier. -/
def isIdentChar (c : Char) : Bool := c.isAlphanum || c = '_'

/-- Numeric value of a digit sequence. -/
def digitsVal (ds : List Char) : Int :=
  Int.ofNat (ds.foldl (fun a c => a * 10 + (c.toNat - 48)) 0)

/-- Fuel-indexed tokenizer for substitution expressions (the fuel is an
upper bound on the input length). -/
def tokenizeAux : Nat → List Char → Option (List Tok)
  | _, [] => some []
  | 0, _ :: _ => none
  | n + 1, c :: cs =>
    if c = ' ' then tokenizeAux n cs
    else if c = '+' then
      match tokenizeAux n cs with
      | some ts => some (.plus :: ts)
      | none => none
    else if isIdentStart c then
      match tokenizeAux n (cs.dropWhile isIdentChar) with
      | some ts => some (.ident (String.mk (c :: cs.takeWhile isIdentChar)) :: ts)
      | none => none
    else if c.isDigit then
      match tokenizeAux n (cs.dropWhile Char.isDigit) with
      | some ts => some (.num (digitsVal (c :: cs.takeWhile Char.isDigit)) :: ts)
      | none => none
    else none

/-- A primary expression: an identifier or an integer literal. -/
def parsePrimary : List Tok → Option (Expr × List Tok)
  | .ident x :: r => some (.var x, r)
  | .num n :: r => some (.lit n, r)
  | _ => none

/-- Left-associated sums of primaries (fuel-indexed). -/
def parseSumAux : Nat → Expr → List Tok → Option (Expr × List Tok)
  | _, acc, [] => some (acc, [])
  | 0, _, _ :: _ => none
  | n + 1, acc, t :: r =>
    match t with
    | .plus =>
      match parsePrimary r with
      | some (e, r2) => parseSumAux n (.add acc e) r2
      | none => none
    | _ => some (acc, t :: r)

/-- Parses a whole substitution expression from its character list. -/
def parseExprChars (cs : List Char) : Option Expr :=
  match tokenizeAux cs.length cs with
  | none => none
  | some toks =>
    match parsePrimary toks with
    | none => none
    | some (e, rest) =>
      match parseSumAux rest.length e rest with
      | some (e2, []) => some e2
      | _ => none

/-- Prepends a literal character to a chunk list, merging with a leading
literal chunk when there is one. -/
def consChunkChar (c : Char) : List Chunk → List Chunk
  | .lit s :: rest => .lit (String.mk (c :: s.data)) :: rest
  | ks => .lit (String.mk [c]) :: ks

/-- Fuel-indexed scanner splitting a template string into literal chunks
and `$\x7b...\x7d` substitution chunks. -/
def scanAux : Nat → List Char → Option (List Chunk)
  | _, [] => some []
  | 0, _ :: _ => none
  | n + 1, c :: cs =>
    if c = '$' then
      match cs with
      | c2 :: cs2 =>
        if c2 = lbraceChar then
          match breakBrace cs2 with
          | some (inner, rest) =>
            match parseExprChars inner with
            | some e =>
              match scanAux n rest with
              | some ks => some (.expr e :: ks)
              | none => none
            | none => none
          | none => none
        else
          match scanAux n cs with
          | some ks => some (consChunkChar c ks)
          | none => none
      | [] => some [.lit (String.mk [c])]
    else
      match scanAux n cs with
      | some ks => some (consChunkChar c ks)
      | none => none

/-- Scans a template string into its chunks (`none` = the host would
reject the template text when building the function). -/
def scanChunks (s : String) : Option (List Chunk) := scanAux s.data.length s.data

/-- Evaluates one chunk to the text it contributes. -/
def evalChunk (env : List (String × Val)) : Chunk → Except Err String
  | .lit s => .ok s
  | .expr e =>
    match evalExpr env e with
    | .ok v => .ok v.toStr
    | .error er => .error er

/-- Evaluates all chunks left to right, stopping at the first error. -/
def evalChunks (env : List (String × Val)) : List Chunk → Except Err (List String)
  | [] => .ok []
  | c :: ks =>
    match evalChunk env c with
    | .error er => .error er
    | .ok s =>
      match evalChunks env ks with
      | .error er => .error er
      | .ok ss => .ok (s :: ss)

/-- `interpolate(str, params)`: builds a function whose parameters are the
keys of `params` and whose body returns `str` evaluated as a template
literal, and calls it with the values of `params`. Modelled from the spec
for the host-engine part: the template-literal evaluation itself is
performed by the runtime (`new Function`), not by code in this repository. -/
def interpolate (str : String) (params : List (String × Val)) : Except Err String :=
  match scanChunks str with
  | none => .error .malformed
  | some ks =>
    match evalChunks params ks with
    | .error er => .error er
    | .ok parts => .ok (String.join parts)

/-- `loadTemplate(id, params)`: looks the template up via `get('#' + id)`
(propagating its `NotFound` throw) and interpolates its inner markup. -/
def loadTemplate (sem : String → Elem → Bool) (body : DomTree) (id : String)
    (params : List (String × Val)) : Except Err String :=
  match getEl sem ("#" ++ id) body with
  | .error er => .error er
  | .ok t => interpolate t.inner params

/-- `htmlToElement(html, wrapperTag?)`: creates a wrapper element of type
`wrapperTag ?? 'template'` (`mk tag` is the host's `createElement`),
assigns `html.trim()` to its `innerHTML` (parsing it into the element
children `parse (html.trim)`), and returns the wrapper itself when a
`wrapperTag` was given, or else the first parsed element child of the
default template wrapper's content (`none` when there is no element). -/
def htmlToElement (parse : String → List DomTree) (mk : String → Elem)
    (html : String) (wrapperTag : Option String) : Option DomTree :=
  match wrapperTag with
  | some tag => some (.node { mk tag with inner := html.trim } (parse html.trim))
  | none => (parse html.trim).head?

/-- The clamping of `toOpacity` into `[0,1]` performed by both fades. -/
def clampQ (t : ℚ) : ℚ := if t > 1 then 1 else if t < 0 then 0 else t

/-- The per-node state of one fade animation: the element, the closure
variable `opacity`, whether the interval timer is still registered, and
whether the returned promise has been resolved. -/
structure FadeState where
  elem : Elem
  opacity : ℚ
  timerActive : Bool
  resolved : Bool
deriving DecidableEq

/-- The state right after `fadeIn`/`fadeOut` start on a single node:
`opacity = parseFloat(element.style.opacity) || 0`, the interval timer
registered, the promise pending. -/
def fadeStart (e : Elem) : FadeState :=
  { elem := e, opacity := e.styleOpacity.getD 0, timerActive := true, resolved := false }

/-- One tick of the `fadeIn` interval (with `t` the already-clamped
`toOpacity`): step the opacity, show the element when `t > 0`, then either
resolve and clear the timer (leaving the stored style untouched) on
overshoot, or write the stepped opacity to the element's style. -/
def fadeInTick (t : ℚ) (s : FadeState) : FadeState :=
  if s.timerActive = true then
    if (s.opacity * 10 + 1) / 10 > t then
      { elem := (if t > 0 then showElem s.elem else s.elem),
        opacity := (s.opacity * 10 + 1) / 10, timerActive := false, resolved := true }
    else
      { elem := { (if t > 0 then showElem s.elem else s.elem) with
                    styleOpacity := some ((s.opacity * 10 + 1) / 10) },
        opacity := (s.opacity * 10 + 1) / 10, timerActive := true, resolved := s.resolved }
  else s

/-- One tick of the `fadeOut` interval (with `t` the already-clamped
`toOpacity`): step the opacity down, and when it drops below `t`, resolve,
clear the timer and hide the element; otherwise write the stepped opacity
to the element's style. -/
def fadeOutTick (t : ℚ) (s : FadeState) : FadeState :=
  if s.timerActive = true then
    if (s.opacity * 10 - 1) / 10 < t then
      { elem := hideElem s.elem,
        opacity := (s.opacity * 10 - 1) / 10, timerActive := false, resolved := true }
    else
      { elem := { s.elem with styleOpacity := some ((s.opacity * 10 - 1) / 10) },
        opacity := (s.opacity * 10 - 1) / 10, timerActive := true, resolved := s.resolved }
  else s

/-- The single-node `fadeIn` state after `n` timer ticks (the `delay`
argument only fixes the real-time period of the ticks, which the model
indexes abstractly). -/
def fadeInRun (e : Elem) (t : ℚ) (n : Nat) : FadeState :=
  (fadeInTick (clampQ t))^[n] (fadeStart e)

/-- The single-node `fadeOut` state after `n` timer ticks. -/
def fadeOutRun (e : Elem) (t : ℚ) (n : Nat) : FadeState :=
  (fadeOutTick (clampQ t))^[n] (fadeStart e)

/-- The promise a top-level fade call hands back: the immediately resolved
`Promise.resolve()` of the collection branch, or the pending promise tied
to the per-node machine of the single-element branch. -/
inductive FadePromise where
  | immediate
  | tracked (machine : FadeState)
deriving DecidableEq

/-- Whether the returned promise is already resolved at the moment the
call returns. -/
def FadePromise.resolvedAtReturn : FadePromise → Bool
  | .immediate => true
  | .tracked s => s.resolved

/-- Top-level `fadeIn`: a single element gets its own animation machine;
any other input fans out through `elementMap` (one machine per resolved
node), pops and discards the collected per-node promises, and returns
`Promise.resolve()`. -/
def fadeInCall (sem : String → Elem → Bool) (body : DomTree)
    (input : ElementsInput) (t : ℚ) : FadePromise :=
  match input with
  | .single e => .tracked (fadeStart e)
  | inp =>
    let res := elementMap sem body inp (fun el => FadePromise.tracked (fadeStart el))
    let _ := if res.length ≠ 0 then res.dropLast else res
    .immediate

/-- Top-level `fadeOut`, mirror image of `fadeInCall`. -/
def fadeOutCall (sem : String → Elem → Bool) (body : DomTree)
    (input : ElementsInput) (t : ℚ) : FadePromise :=
  match input with
  | .single e => .tracked (fadeStart e)
  | inp =>
    let res := elementMap sem body inp (fun el => FadePromise.tracked (fadeStart el))
    let _ := if res.length ≠ 0 then res.dropLast else res
    .immediate

deriving instance DecidableEq for Except

/-! Shared helper lemmas about the hidden-class marker. -/

theorem hideElem_mem (e : Elem) : hiddenClass ∈ (hideElem e).classes := by
  by_cases h : hiddenClass ∈ e.classes <;> simp [hideElem, h]

theorem showElem_not_mem (e : Elem) : hiddenClass ∉ (showElem e).classes := by
  simp [showElem, List.mem_filter]

theorem hideElem_of_mem (e : Elem) (h : hiddenClass ∈ e.classes) : hideElem e = e := by
  simp [hideElem, h]

theorem showElem_of_not_mem (e : Elem) (h : hiddenClass ∉ e.classes) : showElem e = e := by
  have hf : e.classes.filter (fun c => c != hiddenClass) = e.classes :=
    List.filter_eq_self.mpr (fun c hc => by
      simp only [bne_iff_ne, ne_eq]
      exact fun hcc => h (hcc ▸ hc))
  simp [showElem, hf]

theorem filter_hidden_idem (l : List String) :
    (l.filter (fun c => c != hiddenClass)).filter (fun c => c != hiddenClass)
      = l.filter (fun c => c != hiddenClass) := by
  simp [List.filter_filter]

theorem showElem_idem (e : Elem) : showElem (showElem e) = showElem e := by
  simp [showElem, filter_hidden_idem]

theorem hideElem_idem (e : Elem) : hideElem (hideElem e) = hideElem e :=
  hideElem_of_mem _ (hideElem_mem e)

theorem hideAt_get_ne (d : List Elem) (i j : Nat) (h : j ≠ i) :
    (hideAt d i).get? j = d.get? j := by
  induction d generalizing i j with
  | nil => simp [hideAt]
  | cons e es ih =>
    cases i with
    | zero =>
      cases j with
      | zero => exact absurd rfl h
      | succ j => simp [hideAt]
    | succ i =>
      cases j with
      | zero => simp [hideAt]
      | succ j => simpa [hideAt] using ih i j (fun hc => h (by omega))

theorem showAt_get_ne (d : List Elem) (i j : Nat) (h : j ≠ i) :
    (showAt d i).get? j = d.get? j := by
  induction d generalizing i j with
  | nil => simp [showAt]
  | cons e es ih =>
    cases i with
    | zero =>
      cases j with
      | zero => exact absurd rfl h
      | succ j => simp [showAt]
    | succ i =>
      cases j with
      | zero => simp [showAt]
      | succ j => simpa [showAt] using ih i j (fun hc => h (by omega))

/-- C8: `hide` and `show` are idempotent and inverse with respect to the
hidden-class marker: `hide` on an already-hidden node and `show` on an
already-visible node leave the class list unchanged, and `hide` followed by
`show` leaves the node with no hidden-class marker present. -/
theorem hide_show_idempotent_inverse (e : Elem) :
    (hiddenClass ∈ e.classes → hideElem e = e)
    ∧ (hiddenClass ∉ e.classes → showElem e = e)
    ∧ hiddenClass ∉ (showElem (hideElem e)).classes
    ∧ hideElem (hideElem e) = hideElem e
    ∧ showElem (showElem e) = showElem e :=
  ⟨hideElem_of_mem e, showElem_of_not_mem e, showElem_not_mem (hideElem e),
    hideElem_idem e, showElem_idem e⟩

theorem hide_show_idempotent_inverse_witness :
    hideElem ⟨["a", "d-none"], none, [], ""⟩ = ⟨["a", "d-none"], none, [], ""⟩
    ∧ showElem ⟨["a"], none, [], ""⟩ = ⟨["a"], none, [], ""⟩
    ∧ hiddenClass ∉ (showElem (hideElem ⟨["a"], none, [], ""⟩)).classes :=
  ⟨(hide_show_idempotent_inverse _).1 (by decide),
    (hide_show_idempotent_inverse _).2.1 (by decide),
    (hide_show_idempotent_inverse _).2.2.1⟩

/-- C10: `hide` only adds the `'d-none'` membership and `show` only removes
it: membership of every other class is unchanged, the node's style opacity,
attributes and inner markup are unchanged, and every other node of the
store is left untouched. -/
theorem hide_show_frame (e : Elem) (c : String) (hc : c ≠ hiddenClass) :
    (c ∈ (hideElem e).classes ↔ c ∈ e.classes)
    ∧ (c ∈ (showElem e).classes ↔ c ∈ e.classes)
    ∧ (hideElem e).styleOpacity = e.styleOpacity
    ∧ (hideElem e).attrs = e.attrs
    ∧ (hideElem e).inner = e.inner
    ∧ (showElem e).styleOpacity = e.styleOpacity
    ∧ (showElem e).attrs = e.attrs
    ∧ (showElem e).inner = e.inner
    ∧ hiddenClass ∈ (hideElem e).classes
    ∧ hiddenClass ∉ (showElem e).classes
    ∧ (∀ (d : List Elem) (i j : Nat), j ≠ i →
        (hideAt d i).get? j = d.get? j ∧ (showAt d i).get? j = d.get? j) := by
  refine ⟨?_, ?_, rfl, rfl, rfl, rfl, rfl, rfl, hideElem_mem e, showElem_not_mem e,
    fun d i j h => ⟨hideAt_get_ne d i j h, showAt_get_ne d i j h⟩⟩
  · by_cases h : hiddenClass ∈ e.classes
    · simp [hideElem, h]
    · simp [hideElem, h, hc]
  · simp [showElem, List.mem_filter, bne_iff_ne, hc]

theorem hide_show_frame_witness :
    ("a" ∈ (hideElem ⟨["a"], none, [], ""⟩).classes ↔ "a" ∈ (⟨["a"], none, [], ""⟩ : Elem).classes)
    ∧ (hideAt [⟨["a"], none, [], ""⟩, ⟨["b"], none, [], ""⟩] 0).get? 1
        = [(⟨["a"], none, [], ""⟩ : Elem), ⟨["b"], none, [], ""⟩].get? 1 :=
  ⟨(hide_show_frame ⟨["a"], none, [], ""⟩ "a" (by decide)).1,
    ((hide_show_frame ⟨["a"], none, [], ""⟩ "a" (by decide)).2.2.2.2.2.2.2.2.2.2
      [⟨["a"], none, [], ""⟩, ⟨["b"], none, [], ""⟩] 0 1 (by decide)).1⟩

/-- C5: `elementMap` invokes the callback exactly once per resolved node and
returns the results in order: a single node gives one invocation, a selector
gives one invocation per match in document order, an empty collection gives
none, and a non-node non-string non-iterable input is a silent no-op. -/
theorem elementMap_contract {β : Type} (sem : String → Elem → Bool) (body : DomTree)
    (f : Elem → β) :
    (∀ input, elementMap sem body input f = (resolvedNodes sem body input).map f)
    ∧ (∀ e, elementMap sem body (.single e) f = [f e])
    ∧ (∀ s a b c, querySelectorAll sem s body = [a, b, c] →
        elementMap sem body (.selector s) f = [f a, f b, f c])
    ∧ elementMap sem body (.iterable []) f = []
    ∧ elementMap sem body .other f = []
    ∧ (∀ input, (elementMap sem body input f).length
        = (resolvedNodes sem body input).length) := by
  refine ⟨?_, fun e => rfl, ?_, rfl, rfl, ?_⟩
  · intro input; cases input <;> rfl
  · intro s a b c h
    show (querySelectorAll sem s body).map f = _
    rw [h]; rfl
  · intro input; cases input <;> simp [elementMap, resolvedNodes]

theorem elementMap_contract_witness :
    elementMap (fun _ _ => true)
        (DomTree.node ⟨[], none, [], "root"⟩
          [.node ⟨[], none, [], "a"⟩ [], .node ⟨[], none, [], "b"⟩ [],
            .node ⟨[], none, [], "c"⟩ []])
        (.selector ".x") Elem.inner = ["a", "b", "c"] :=
  (elementMap_contract (fun _ _ => true)
      (DomTree.node ⟨[], none, [], "root"⟩
        [.node ⟨[], none, [], "a"⟩ [], .node ⟨[], none, [], "b"⟩ [],
          .node ⟨[], none, [], "c"⟩ []]) Elem.inner).2.2.1
    ".x" ⟨[], none, [], "a"⟩ ⟨[], none, [], "b"⟩ ⟨[], none, [], "c"⟩ rfl

/-- C6: `find` returns the first matching descendant or `none` and never
raises; `get` returns the same first match, and when nothing matches it
throws a `NotFound` error whose message includes the selector text — the
raise shared by `loadTemplate` via `get`, `get`'s only error. -/
theorem find_get_contract (sem : String → Elem → Bool) (s : String) (scope : DomTree) :
    find sem s scope = (querySelectorAll sem s scope).head?
    ∧ (∀ e rest, querySelectorAll sem s scope = e :: rest →
        find sem s scope = some e ∧ getEl sem s scope = .ok e)
    ∧ (querySelectorAll sem s scope = [] →
        find sem s scope = none
          ∧ getEl sem s scope = .error (.notFound (notFoundMsg s)))
    ∧ (∃ p q, notFoundMsg s = p ++ s ++ q)
    ∧ (∀ er, getEl sem s scope = .error er → er = .notFound (notFoundMsg s))
    ∧ (∀ body tid params, find sem ("#" ++ tid) body = none →
        loadTemplate sem body tid params
          = .error (.notFound (notFoundMsg ("#" ++ tid)))) := by
  refine ⟨rfl, ?_, ?_, ⟨"The \"", "\" element was not found", rfl⟩, ?_, ?_⟩
  · intro e rest h
    have hf : find sem s scope = some e := by simp [find, h]
    exact ⟨hf, by simp [getEl, hf]⟩
  · intro h
    have hf : find sem s scope = none := by simp [find, h]
    exact ⟨hf, by simp [getEl, hf]⟩
  · intro er h
    unfold getEl at h
    cases hf : find sem s scope with
    | some e => rw [hf] at h; exact Except.noConfusion h
    | none =>
      rw [hf] at h
      have := Except.error.inj h
      exact this ▸ rfl
  · intro body tid params h
    unfold loadTemplate getEl
    rw [h]

theorem find_get_contract_witness :
    (find (fun sel e => sel == e.inner) ".m"
        (DomTree.node ⟨[], none, [], "root"⟩
          [.node ⟨[], none, [], ".m"⟩ [], .node ⟨[], none, [], ".m"⟩ []])
      = some ⟨[], none, [], ".m"⟩)
    ∧ (getEl (fun sel e => sel == e.inner) ".missing"
        (DomTree.node ⟨[], none, [], "root"⟩ [.node ⟨[], none, [], ".m"⟩ []])
      = .error (.notFound (notFoundMsg ".missing"))) :=
  ⟨((find_get_contract (fun sel e => sel == e.inner) ".m"
      (DomTree.node ⟨[], none, [], "root"⟩
        [.node ⟨[], none, [], ".m"⟩ [], .node ⟨[], none, [], ".m"⟩ []])).2.1
      ⟨[], none, [], ".m"⟩ [⟨[], none, [], ".m"⟩] rfl).1,
    ((find_get_contract (fun sel e => sel == e.inner) ".missing"
      (DomTree.node ⟨[], none, [], "root"⟩ [.node ⟨[], none, [], ".m"⟩ []])).2.2.1
      rfl).2⟩

/-! Shared helper lemmas about the fade state machines. -/

theorem clampQ_one : clampQ 1 = 1 := by norm_num [clampQ]

theorem clampQ_zero : clampQ 0 = 0 := by norm_num [clampQ]

theorem fadeInRun_zero (e : Elem) (t : ℚ) : fadeInRun e t 0 = fadeStart e := rfl

theorem fadeOutRun_zero (e : Elem) (t : ℚ) : fadeOutRun e t 0 = fadeStart e := rfl

theorem fadeInRun_succ (e : Elem) (t : ℚ) (n : Nat) :
    fadeInRun e t (n + 1) = fadeInTick (clampQ t) (fadeInRun e t n) := by
  simp [fadeInRun, Function.iterate_succ_apply']

theorem fadeOutRun_succ (e : Elem) (t : ℚ) (n : Nat) :
    fadeOutRun e t (n + 1) = fadeOutTick (clampQ t) (fadeOutRun e t n) := by
  simp [fadeOutRun, Function.iterate_succ_apply']

theorem fadeInTick_of_inactive (t : ℚ) (s : FadeState) (h : s.timerActive = false) :
    fadeInTick t s = s := by simp [fadeInTick, h]

theorem fadeOutTick_of_inactive (t : ℚ) (s : FadeState) (h : s.timerActive = false) :
    fadeOutTick t s = s := by simp [fadeOutTick, h]

theorem fadeInTick_opacity (t : ℚ) (s : FadeState) (h : s.timerActive = true) :
    (fadeInTick t s).opacity = (s.opacity * 10 + 1) / 10 := by
  simp only [fadeInTick, h, if_true]
  split <;> rfl

theorem fadeOutTick_opacity (t : ℚ) (s : FadeState) (h : s.timerActive = true) :
    (fadeOutTick t s).opacity = (s.opacity * 10 - 1) / 10 := by
  simp only [fadeOutTick, h, if_true]
  split <;> rfl

theorem fadeInTick_inactive_iff (t : ℚ) (s : FadeState) (h : s.timerActive = true) :
    (fadeInTick t s).timerActive = false ↔ (s.opacity * 10 + 1) / 10 > t := by
  simp only [fadeInTick, h, if_true]
  split
  · rename_i h2; simp [h2]
  · rename_i h2; simp [h2]

theorem fadeOutTick_inactive_iff (t : ℚ) (s : FadeState) (h : s.timerActive = true) :
    (fadeOutTick t s).timerActive = false ↔ (s.opacity * 10 - 1) / 10 < t := by
  simp only [fadeOutTick, h, if_true]
  split
  · rename_i h2; simp [h2]
  · rename_i h2; simp [h2]

theorem fadeOutTick_settled (t : ℚ) (s : FadeState) (h : s.timerActive = true)
    (h2 : (s.opacity * 10 - 1) / 10 < t) :
    fadeOutTick t s = ⟨hideElem s.elem, (s.opacity * 10 - 1) / 10, false, true⟩ := by
  simp [fadeOutTick, h, h2]

theorem fadeInRun_active_of_succ (e : Elem) (t : ℚ) (n : Nat)
    (h : (fadeInRun e t (n + 1)).timerActive = true) :
    (fadeInRun e t n).timerActive = true := by
  cases h2 : (fadeInRun e t n).timerActive with
  | true => rfl
  | false =>
    rw [fadeInRun_succ, fadeInTick_of_inactive _ _ h2] at h
    rw [h2] at h
    exact Bool.noConfusion h

theorem fadeOutRun_active_of_succ (e : Elem) (t : ℚ) (n : Nat)
    (h : (fadeOutRun e t (n + 1)).timerActive = true) :
    (fadeOutRun e t n).timerActive = true := by
  cases h2 : (fadeOutRun e t n).timerActive with
  | true => rfl
  | false =>
    rw [fadeOutRun_succ, fadeOutTick_of_inactive _ _ h2] at h
    rw [h2] at h
    exact Bool.noConfusion h

theorem fadeInRun_freeze (e : Elem) (t : ℚ) (n : Nat)
    (h : (fadeInRun e t n).timerActive = false) :
    ∀ m, n ≤ m → fadeInRun e t m = fadeInRun e t n := by
  intro m hm
  obtain ⟨k, rfl⟩ := Nat.exists_eq_add_of_le hm
  clear hm
  induction k with
  | zero => rfl
  | succ k ih =>
    rw [show n + (k + 1) = (n + k) + 1 from rfl, fadeInRun_succ, ih,
      fadeInTick_of_inactive _ _ h]

theorem fadeOutRun_freeze (e : Elem) (t : ℚ) (n : Nat)
    (h : (fadeOutRun e t n).timerActive = false) :
    ∀ m, n ≤ m → fadeOutRun e t m = fadeOutRun e t n := by
  intro m hm
  obtain ⟨k, rfl⟩ := Nat.exists_eq_add_of_le hm
  clear hm
  induction k with
  | zero => rfl
  | succ k ih =>
    rw [show n + (k + 1) = (n + k) + 1 from rfl, fadeOutRun_succ, ih,
      fadeOutTick_of_inactive _ _ h]

theorem fadeInRun_opacity (e : Elem) (t : ℚ) (n : Nat)
    (h : (fadeInRun e t n).timerActive = true) :
    (fadeInRun e t n).opacity = (fadeStart e).opacity + n / 10 := by
  induction n with
  | zero => simp [fadeInRun_zero]
  | succ n ih =>
    have ha := fadeInRun_active_of_succ e t n h
    rw [fadeInRun_succ, fadeInTick_opacity _ _ ha, ih ha]
    push_cast
    ring

theorem fadeOutRun_opacity (e : Elem) (t : ℚ) (n : Nat)
    (h : (fadeOutRun e t n).timerActive = true) :
    (fadeOutRun e t n).opacity = (fadeStart e).opacity - n / 10 := by
  induction n with
  | zero => simp [fadeOutRun_zero]
  | succ n ih =>
    have ha := fadeOutRun_active_of_succ e t n h
    rw [fadeOutRun_succ, fadeOutTick_opacity _ _ ha, ih ha]
    push_cast
    ring

theorem fadeInRun_term (e : Elem) (t : ℚ) :
    ∃ n, (fadeInRun e t n).timerActive = false := by
  by_contra hall
  push_neg at hall
  have hact : ∀ n, (fadeInRun e t n).timerActive = true := by
    intro n
    cases h : (fadeInRun e t n).timerActive with
    | true => rfl
    | false => exact absurd h (hall n)
  have hno : ∀ n, ¬ ((fadeInRun e t n).opacity * 10 + 1) / 10 > clampQ t := by
    intro n hgt
    have h2 := (fadeInTick_inactive_iff (clampQ t) (fadeInRun e t n) (hact n)).mpr hgt
    rw [← fadeInRun_succ] at h2
    rw [hact (n + 1)] at h2
    exact Bool.noConfusion h2
  obtain ⟨k, hk⟩ := exists_nat_gt ((clampQ t - (fadeStart e).opacity) * 10)
  apply hno k
  rw [fadeInRun_opacity e t k (hact k)]
  rw [gt_iff_lt, lt_div_iff (by norm_num : (0:ℚ) < 10)]
  have hx : ((fadeStart e).opacity + (k : ℚ) / 10) * 10 + 1
      = (fadeStart e).opacity * 10 + k + 1 := by ring
  rw [hx]
  linarith

theorem fadeOutRun_term (e : Elem) (t : ℚ) :
    ∃ n, (fadeOutRun e t n).timerActive = false := by
  by_contra hall
  push_neg at hall
  have hact : ∀ n, (fadeOutRun e t n).timerActive = true := by
    intro n
    cases h : (fadeOutRun e t n).timerActive with
    | true => rfl
    | false => exact absurd h (hall n)
  have hno : ∀ n, ¬ ((fadeOutRun e t n).opacity * 10 - 1) / 10 < clampQ t := by
    intro n hlt
    have h2 := (fadeOutTick_inactive_iff (clampQ t) (fadeOutRun e t n) (hact n)).mpr hlt
    rw [← fadeOutRun_succ] at h2
    rw [hact (n + 1)] at h2
    exact Bool.noConfusion h2
  obtain ⟨k, hk⟩ := exists_nat_gt (((fadeStart e).opacity - clampQ t) * 10)
  apply hno k
  rw [fadeOutRun_opacity e t k (hact k)]
  rw [div_lt_iff (by norm_num : (0:ℚ) < 10)]
  have hx : ((fadeStart e).opacity - (k : ℚ) / 10) * 10 - 1
      = (fadeStart e).opacity * 10 - k - 1 := by ring
  rw [hx]
  linarith

theorem fadeInRun_resolved (e : Elem) (t : ℚ) (n : Nat) :
    (fadeInRun e t n).resolved = !(fadeInRun e t n).timerActive := by
  induction n with
  | zero => simp [fadeInRun_zero, fadeStart]
  | succ n ih =>
    rw [fadeInRun_succ]
    cases ha : (fadeInRun e t n).timerActive with
    | false =>
      rw [fadeInTick_of_inactive _ _ ha]
      exact ih
    | true =>
      simp only [fadeInTick, ha, if_true]
      split
      · rfl
      · simp only [ha] at ih
        simp [ih]

theorem fadeOutRun_resolved (e : Elem) (t : ℚ) (n : Nat) :
    (fadeOutRun e t n).resolved = !(fadeOutRun e t n).timerActive := by
  induction n with
  | zero => simp [fadeOutRun_zero, fadeStart]
  | succ n ih =>
    rw [fadeOutRun_succ]
    cases ha : (fadeOutRun e t n).timerActive with
    | false =>
      rw [fadeOutTick_of_inactive _ _ ha]
      exact ih
    | true =>
      simp only [fadeOutTick, ha, if_true]
      split
      · rfl
      · simp only [ha] at ih
        simp [ih]

theorem flip_unique (f : Nat → Bool) (h0 : f 0 = true)
    (hmono : ∀ n, f n = false → f (n + 1) = false)
    (hterm : ∃ n, f n = false) :
    ∃! m, f m = true ∧ f (m + 1) = false := by
  classical
  have hN := Nat.find_spec hterm
  have hmin : ∀ m, m < Nat.find hterm → ¬ f m = false := fun m hm => Nat.find_min hterm hm
  have hpos : 0 < Nat.find hterm := by
    rcases Nat.eq_zero_or_pos (Nat.find hterm) with h | h
    · rw [h] at hN; rw [h0] at hN; exact Bool.noConfusion hN
    · exact h
  refine ⟨Nat.find hterm - 1, ⟨?_, ?_⟩, ?_⟩
  · have hne := hmin (Nat.find hterm - 1) (by omega)
    cases hc : f (Nat.find hterm - 1) with
    | true => rfl
    | false => exact absurd hc hne
  · have hx : Nat.find hterm - 1 + 1 = Nat.find hterm := by omega
    rw [hx]
    exact hN
  · rintro y ⟨hy1, hy2⟩
    by_contra hne
    rcases Nat.lt_or_ge y (Nat.find hterm - 1) with hlt | hge
    · exact hmin (y + 1) (by omega) hy2
    · have hyN : Nat.find hterm ≤ y := by omega
      have hfalse : ∀ k, f (Nat.find hterm + k) = false := by
        intro k
        induction k with
        | zero => simpa using hN
        | succ k ih => exact hmono _ ih
      obtain ⟨k, rfl⟩ := Nat.exists_eq_add_of_le hyN
      rw [hfalse k] at hy1
      exact Bool.noConfusion hy1

theorem fadeInRun_from_zero (e : Elem) (h : e.styleOpacity.getD 0 = 0) :
    ∀ k, 1 ≤ k → k ≤ 10 →
      fadeInRun e 1 k
        = ⟨⟨(showElem e).classes, some ((k : ℚ) / 10), e.attrs, e.inner⟩,
            (k : ℚ) / 10, true, false⟩ := by
  intro k hk1
  induction k, hk1 using Nat.le_induction with
  | base =>
    intro _
    rw [show (1 : Nat) = 0 + 1 from rfl, fadeInRun_succ, fadeInRun_zero, clampQ_one]
    have hcond : ¬ (((fadeStart e).opacity * 10 + 1) / 10 > 1) := by
      simp only [fadeStart, h]
      norm_num
    simp only [fadeInTick, fadeStart, h, if_true, hcond, if_false]
    norm_num [showElem]
  | succ k hk ih =>
    intro hk10
    have hrun := ih (by omega)
    rw [fadeInRun_succ, hrun, clampQ_one]
    have hk9 : (k : ℚ) ≤ 9 := by exact_mod_cast (by omega : k ≤ 9)
    have hcond : ¬ ((((k : ℚ) / 10) * 10 + 1) / 10 > 1) := by
      rw [gt_iff_lt, lt_div_iff₀ (by norm_num : (0:ℚ) < 10)]
      have hx : ((k : ℚ) / 10) * 10 + 1 = (k : ℚ) + 1 := by ring
      rw [hx]
      linarith
    have harith : (((k : ℚ) / 10) * 10 + 1) / 10 = ((k : ℚ) + 1) / 10 := by ring
    simp only [fadeInTick, if_true, hcond, if_false, harith]
    norm_num [showElem, filter_hidden_idem]
    rw [div_le_one (by norm_num : (0:ℚ) < 10)]
    linarith

/-- C1: `fadeIn(el, 1, 50)` from opacity 0 settles (timer cleared, promise
resolved) at tick 11 and stays settled; at settlement the stored style
opacity equals the last pre-overshoot value (so it is at least that value
and at most the target plus one step), the hidden class is absent from
every tick on, and the internal opacity overshoots the clamped target and
is left uncorrected (the stored value is not rewritten at the resolving
tick). -/
theorem fadeIn_single_settlement (e : Elem) (h : e.styleOpacity.getD 0 = 0) :
    (fadeInRun e 1 11).timerActive = false
    ∧ (fadeInRun e 1 11).resolved = true
    ∧ (∀ m, 11 ≤ m → fadeInRun e 1 m = fadeInRun e 1 11)
    ∧ (fadeInRun e 1 10).opacity = 1
    ∧ (fadeInRun e 1 11).elem.styleOpacity = some ((fadeInRun e 1 10).opacity)
    ∧ (∃ q, (fadeInRun e 1 11).elem.styleOpacity = some q
        ∧ (fadeInRun e 1 10).opacity ≤ q ∧ q ≤ 1 + 1 / 10)
    ∧ (∀ k, 1 ≤ k → k ≤ 11 → hiddenClass ∉ (fadeInRun e 1 k).elem.classes)
    ∧ (fadeInRun e 1 11).opacity = 11 / 10
    ∧ (1 : ℚ) < (fadeInRun e 1 11).opacity
    ∧ (fadeInRun e 1 11).elem.styleOpacity = (fadeInRun e 1 10).elem.styleOpacity := by
  have h10 := fadeInRun_from_zero e h 10 (by omega) (by omega)
  have h10x : fadeInRun e 1 10
      = ⟨⟨(showElem e).classes, some 1, e.attrs, e.inner⟩, 1, true, false⟩ := by
    rw [h10]; norm_num
  have h11 : fadeInRun e 1 11
      = ⟨⟨(showElem e).classes, some 1, e.attrs, e.inner⟩, 11 / 10, false, true⟩ := by
    rw [show (11 : Nat) = 10 + 1 from rfl, fadeInRun_succ, h10x, clampQ_one]
    have hcond : ((1 : ℚ) * 10 + 1) / 10 > 1 := by norm_num
    simp only [fadeInTick, if_true, hcond, if_pos]
    norm_num [showElem, filter_hidden_idem]
  refine ⟨by rw [h11], by rw [h11], ?_, by rw [h10x], by rw [h11, h10x], ?_, ?_,
    by rw [h11], by rw [h11]; norm_num, by rw [h11, h10x]⟩
  · intro m hm
    exact fadeInRun_freeze e 1 11 (by rw [h11]) m hm
  · exact ⟨1, by rw [h11], by rw [h10x], by norm_num⟩
  · intro k hk1 hk11
    by_cases hk10 : k ≤ 10
    · rw [fadeInRun_from_zero e h k hk1 hk10]
      exact showElem_not_mem e
    · have hx : k = 11 := by omega
      subst hx
      rw [h11]
      exact showElem_not_mem e

theorem fadeIn_single_settlement_witness :
    (fadeInRun ⟨[], none, [], ""⟩ 1 11).timerActive = false
    ∧ (fadeInRun ⟨[], none, [], ""⟩ 1 11).resolved = true
    ∧ (fadeInRun ⟨[], none, [], ""⟩ 1 11).opacity = 11 / 10 :=
  ⟨(fadeIn_single_settlement ⟨[], none, [], ""⟩ rfl).1,
    (fadeIn_single_settlement ⟨[], none, [], ""⟩ rfl).2.1,
    (fadeIn_single_settlement ⟨[], none, [], ""⟩ rfl).2.2.2.2.2.2.2.1⟩

/-- C3: for a single-node `fadeOut`, the tick on which the stepped opacity
drops below the clamped target stops the timer, hides the node and
resolves; the animation settles at some tick `N ≥ 1` with the hidden class
present and the timer deactivated, the promise resolves exactly once (at
the terminating tick, pending strictly before it), and the state is frozen
from settlement on — no tick of the fade occurs after it. -/
theorem fadeOut_single_settles (e : Elem) (t : ℚ) :
    (∀ s : FadeState, s.timerActive = true → (s.opacity * 10 - 1) / 10 < clampQ t →
        fadeOutTick (clampQ t) s
          = ⟨hideElem s.elem, (s.opacity * 10 - 1) / 10, false, true⟩)
    ∧ (∃ N, 1 ≤ N
        ∧ (fadeOutRun e t N).timerActive = false
        ∧ (fadeOutRun e t N).resolved = true
        ∧ hiddenClass ∈ (fadeOutRun e t N).elem.classes
        ∧ (∀ m, m < N → (fadeOutRun e t m).resolved = false)
        ∧ (∀ m, N ≤ m → fadeOutRun e t m = fadeOutRun e t N)) := by
  constructor
  · intro s hs h2
    exact fadeOutTick_settled _ s hs h2
  · classical
    have hterm := fadeOutRun_term e t
    have hN : (fadeOutRun e t (Nat.find hterm)).timerActive = false := Nat.find_spec hterm
    have hact : ∀ m, m < Nat.find hterm → (fadeOutRun e t m).timerActive = true := by
      intro m hm
      cases hc : (fadeOutRun e t m).timerActive with
      | true => rfl
      | false => exact absurd hc (Nat.find_min hterm hm)
    have hpos : 1 ≤ Nat.find hterm := by
      rcases Nat.eq_zero_or_pos (Nat.find hterm) with h0 | h0
      · rw [h0, fadeOutRun_zero] at hN
        exact Bool.noConfusion hN
      · exact h0
    refine ⟨Nat.find hterm, hpos, hN, ?_, ?_, ?_, ?_⟩
    · rw [fadeOutRun_resolved, hN]
      rfl
    · have hx : Nat.find hterm - 1 + 1 = Nat.find hterm := by omega
      have ha := hact (Nat.find hterm - 1) (by omega)
      have hinact : (fadeOutTick (clampQ t) (fadeOutRun e t (Nat.find hterm - 1))).timerActive
          = false := by
        rw [← fadeOutRun_succ, hx]
        exact hN
      have hcond := (fadeOutTick_inactive_iff (clampQ t) _ ha).mp hinact
      have hrw : fadeOutRun e t (Nat.find hterm)
          = ⟨hideElem (fadeOutRun e t (Nat.find hterm - 1)).elem,
              ((fadeOutRun e t (Nat.find hterm - 1)).opacity * 10 - 1) / 10, false, true⟩ := by
        conv_lhs => rw [← hx]
        rw [fadeOutRun_succ, fadeOutTick_settled (clampQ t) _ ha hcond]
      rw [hrw]
      exact hideElem_mem _
    · intro m hm
      rw [fadeOutRun_resolved, hact m hm]
      rfl
    · intro m hm
      exact fadeOutRun_freeze e t (Nat.find hterm) hN m hm

theorem fadeOut_single_settles_witness :
    fadeOutTick (clampQ 0) ⟨⟨[], none, [], ""⟩, 0, true, false⟩
      = ⟨hideElem ⟨[], none, [], ""⟩, (0 * 10 - 1) / 10, false, true⟩ :=
  (fadeOut_single_settles ⟨[], none, [], ""⟩ 0).1 ⟨⟨[], none, [], ""⟩, 0, true, false⟩ rfl
    (by rw [clampQ_zero]; norm_num)

/-- C4: every tick of an active single-node fade updates the tracked
opacity by the fixed step formula (`(o*10+1)/10` for `fadeIn`,
`(o*10-1)/10` for `fadeOut`), the opacity is strictly increasing
(`fadeIn`) / strictly decreasing (`fadeOut`) while the timer runs, the
timer is destroyed exactly when the stepped value crosses the clamped
target, and it is destroyed exactly once. -/
theorem fade_tick_formula_monotone (e : Elem) (t : ℚ) (n : Nat) :
    ((fadeInRun e t n).timerActive = true →
        (fadeInRun e t (n + 1)).opacity = ((fadeInRun e t n).opacity * 10 + 1) / 10
          ∧ (fadeInRun e t n).opacity < (fadeInRun e t (n + 1)).opacity)
    ∧ ((fadeOutRun e t n).timerActive = true →
        (fadeOutRun e t (n + 1)).opacity = ((fadeOutRun e t n).opacity * 10 - 1) / 10
          ∧ (fadeOutRun e t (n + 1)).opacity < (fadeOutRun e t n).opacity)
    ∧ ((fadeInRun e t n).timerActive = true →
        ((fadeInRun e t (n + 1)).timerActive = false
          ↔ ((fadeInRun e t n).opacity * 10 + 1) / 10 > clampQ t))
    ∧ ((fadeOutRun e t n).timerActive = true →
        ((fadeOutRun e t (n + 1)).timerActive = false
          ↔ ((fadeOutRun e t n).opacity * 10 - 1) / 10 < clampQ t))
    ∧ (∃! m, (fadeInRun e t m).timerActive = true
        ∧ (fadeInRun e t (m + 1)).timerActive = false)
    ∧ (∃! m, (fadeOutRun e t m).timerActive = true
        ∧ (fadeOutRun e t (m + 1)).timerActive = false) := by
  refine ⟨?_, ?_, ?_, ?_, ?_, ?_⟩
  · intro h
    rw [fadeInRun_succ, fadeInTick_opacity _ _ h]
    refine ⟨rfl, ?_⟩
    have hx : ((fadeInRun e t n).opacity * 10 + 1) / 10
        = (fadeInRun e t n).opacity + 1 / 10 := by ring
    rw [hx]
    linarith
  · intro h
    rw [fadeOutRun_succ, fadeOutTick_opacity _ _ h]
    refine ⟨rfl, ?_⟩
    have hx : ((fadeOutRun e t n).opacity * 10 - 1) / 10
        = (fadeOutRun e t n).opacity - 1 / 10 := by ring
    rw [hx]
    linarith
  · intro h
    rw [fadeInRun_succ]
    exact fadeInTick_inactive_iff _ _ h
  · intro h
    rw [fadeOutRun_succ]
    exact fadeOutTick_inactive_iff _ _ h
  · exact flip_unique (fun m => (fadeInRun e t m).timerActive) rfl
      (fun m hf => by
        show (fadeInRun e t (m + 1)).timerActive = false
        have hf2 : (fadeInRun e t m).timerActive = false := hf
        rw [fadeInRun_succ, fadeInTick_of_inactive _ _ hf2]
        exact hf2)
      (fadeInRun_term e t)
  · exact flip_unique (fun m => (fadeOutRun e t m).timerActive) rfl
      (fun m hf => by
        show (fadeOutRun e t (m + 1)).timerActive = false
        have hf2 : (fadeOutRun e t m).timerActive = false := hf
        rw [fadeOutRun_succ, fadeOutTick_of_inactive _ _ hf2]
        exact hf2)
      (fadeOutRun_term e t)

theorem fade_tick_formula_monotone_witness :
    (fadeInRun ⟨[], none, [], ""⟩ 1 1).opacity
        = ((fadeInRun ⟨[], none, [], ""⟩ 1 0).opacity * 10 + 1) / 10
    ∧ (fadeOutRun ⟨[], none, [], ""⟩ 0 1).opacity
        = ((fadeOutRun ⟨[], none, [], ""⟩ 0 0).opacity * 10 - 1) / 10 :=
  ⟨((fade_tick_formula_monotone ⟨[], none, [], ""⟩ 1 0).1 rfl).1,
    ((fade_tick_formula_monotone ⟨[], none, [], ""⟩ 0 0).2.1 rfl).1⟩

/-- C2: for every collection-valued target (array, node list, or selector
string with any number of matches) `fadeIn` and `fadeOut` return the
already-resolved `Promise.resolve()` — independent of the per-node
animations, whose promises (pending at spawn) are not part of the returned
value. -/
theorem fade_collection_resolves_immediately (sem : String → Elem → Bool) (body : DomTree)
    (t : ℚ) (es : List Elem) (s : String) :
    fadeInCall sem body (.iterable es) t = .immediate
    ∧ fadeInCall sem body (.selector s) t = .immediate
    ∧ fadeInCall sem body .other t = .immediate
    ∧ fadeOutCall sem body (.iterable es) t = .immediate
    ∧ fadeOutCall sem body (.selector s) t = .immediate
    ∧ fadeOutCall sem body .other t = .immediate
    ∧ (fadeInCall sem body (.iterable es) t).resolvedAtReturn = true
    ∧ (fadeOutCall sem body (.iterable es) t).resolvedAtReturn = true
    ∧ (∀ e, (fadeStart e).resolved = false) :=
  ⟨rfl, rfl, rfl, rfl, rfl, rfl, rfl, rfl, fun _ => rfl⟩

/-- C9: `htmlToElement` parses the trimmed html into a detached container:
with a `wrapperTag` it returns the container itself holding the parsed
markup; without one it returns only the first parsed child element,
discarding later siblings, and `none` when the HTML produces no element
children. -/
theorem htmlToElement_contract (parse : String → List DomTree) (mk : String → Elem)
    (html : String) (tag : String) :
    htmlToElement parse mk html (some tag)
        = some (.node { mk tag with inner := html.trim } (parse html.trim))
    ∧ htmlToElement parse mk html none = (parse html.trim).head?
    ∧ (parse html.trim = [] → htmlToElement parse mk html none = none)
    ∧ (∀ a b rest, parse html.trim = a :: b :: rest →
        htmlToElement parse mk html none = some a) := by
  refine ⟨rfl, rfl, ?_, ?_⟩
  · intro h
    simp [htmlToElement, h]
  · intro a b rest h
    simp [htmlToElement, h]

theorem htmlToElement_contract_witness :
    htmlToElement
        (fun _ => [.node ⟨[], none, [], "<li>a</li>"⟩ [], .node ⟨[], none, [], "<li>b</li>"⟩ []])
        (fun _ => ⟨[], none, [], ""⟩) "<li>a</li><li>b</li>" none
      = some (.node ⟨[], none, [], "<li>a</li>"⟩ []) :=
  (htmlToElement_contract
      (fun _ => [.node ⟨[], none, [], "<li>a</li>"⟩ [], .node ⟨[], none, [], "<li>b</li>"⟩ []])
      (fun _ => ⟨[], none, [], ""⟩) "<li>a</li><li>b</li>" "div").2.2.2
    (.node ⟨[], none, [], "<li>a</li>"⟩ []) (.node ⟨[], none, [], "<li>b</li>"⟩ []) [] rfl

/-! Shared helper lemmas about template interpolation. -/

theorem lookupVar_cons_ne (env : List (String × Val)) (n x : String) (v : Val)
    (h : x ≠ n) : lookupVar ((n, v) :: env) x = lookupVar env x := by
  have hb : (n == x) = false := by
    rw [beq_eq_false_iff_ne]
    exact fun hc => h hc.symm
  simp [lookupVar, hb]

theorem evalExpr_unused (env : List (String × Val)) (n : String) (v : Val) :
    ∀ ex : Expr, n ∉ exprVars ex → evalExpr ((n, v) :: env) ex = evalExpr env ex := by
  intro ex
  induction ex with
  | lit m => intro _; rfl
  | var x =>
    intro h
    have hx : x ≠ n := by
      simp only [exprVars, List.mem_singleton] at h
      exact fun hc => h hc.symm
    simp only [evalExpr, lookupVar_cons_ne env n x v hx]
  | add a b iha ihb =>
    intro h
    simp only [exprVars, List.mem_append] at h
    push_neg at h
    simp only [evalExpr, iha h.1, ihb h.2]

theorem evalChunks_unused (env : List (String × Val)) (n : String) (v : Val) :
    ∀ ks : List Chunk, (∀ c ∈ ks, n ∉ chunkVars c) →
      evalChunks ((n, v) :: env) ks = evalChunks env ks := by
  intro ks
  induction ks with
  | nil => intro _; rfl
  | cons c ks ih =>
    intro h
    have hc : evalChunk ((n, v) :: env) c = evalChunk env c := by
      cases c with
      | lit s => rfl
      | expr ex =>
        have hu := evalExpr_unused env n v ex
          (by simpa [chunkVars] using h (.expr ex) (List.mem_cons_self _ _))
        simp only [evalChunk, hu]
    simp only [evalChunks, hc, ih (fun c2 hc2 => h c2 (List.mem_cons_of_mem _ hc2))]

theorem evalExpr_err_missing (env : List (String × Val)) :
    ∀ ex er, evalExpr env ex = .error er →
      ∃ m, er = .refError m ∧ lookupVar env m = none := by
  intro ex
  induction ex with
  | lit m => intro er h; exact absurd h (by simp [evalExpr])
  | var x =>
    intro er h
    simp only [evalExpr] at h
    cases hl : lookupVar env x with
    | some v => rw [hl] at h; simp at h
    | none =>
      rw [hl] at h
      simp only [Except.error.injEq] at h
      exact ⟨x, h.symm, hl⟩
  | add a b iha ihb =>
    intro er h
    simp only [evalExpr] at h
    cases ha : evalExpr env a with
    | error e1 =>
      rw [ha] at h
      simp only [Except.error.injEq] at h
      obtain ⟨m, hm1, hm2⟩ := iha e1 ha
      exact ⟨m, h ▸ hm1, hm2⟩
    | ok va =>
      rw [ha] at h
      cases hb : evalExpr env b with
      | error e2 =>
        rw [hb] at h
        simp only [Except.error.injEq] at h
        obtain ⟨m, hm1, hm2⟩ := ihb e2 hb
        exact ⟨m, h ▸ hm1, hm2⟩
      | ok vb => rw [hb] at h; simp at h

theorem evalExpr_missing (env : List (String × Val)) :
    ∀ ex x, x ∈ exprVars ex → lookupVar env x = none →
      ∃ er, evalExpr env ex = .error er := by
  intro ex
  induction ex with
  | lit m => intro x hx _; simp [exprVars] at hx
  | var y =>
    intro x hx hnone
    simp only [exprVars, List.mem_singleton] at hx
    subst hx
    exact ⟨.refError x, by simp [evalExpr, hnone]⟩
  | add a b iha ihb =>
    intro x hx hnone
    simp only [exprVars, List.mem_append] at hx
    cases hx with
    | inl h1 =>
      obtain ⟨er, he⟩ := iha x h1 hnone
      exact ⟨er, by simp [evalExpr, he]⟩
    | inr h2 =>
      cases ha : evalExpr env a with
      | error e1 => exact ⟨e1, by simp [evalExpr, ha]⟩
      | ok va =>
        obtain ⟨er, he⟩ := ihb x h2 hnone
        exact ⟨er, by simp [evalExpr, ha, he]⟩

theorem evalChunk_err_missing (env : List (String × Val)) (c : Chunk) (er : Err)
    (h : evalChunk env c = .error er) :
    ∃ m, er = .refError m ∧ lookupVar env m = none := by
  cases c with
  | lit s => exact absurd h (by simp [evalChunk])
  | expr ex =>
    simp only [evalChunk] at h
    cases he : evalExpr env ex with
    | ok v => rw [he] at h; simp at h
    | error e2 =>
      rw [he] at h
      simp only [Except.error.injEq] at h
      obtain ⟨m, hm1, hm2⟩ := evalExpr_err_missing env ex e2 he
      exact ⟨m, h ▸ hm1, hm2⟩

theorem evalChunks_missing (env : List (String × Val)) :
    ∀ (ks : List Chunk) (x : String), (∃ c ∈ ks, x ∈ chunkVars c) →
      lookupVar env x = none →
      ∃ m, evalChunks env ks = .error (.refError m) ∧ lookupVar env m = none := by
  intro ks
  induction ks with
  | nil => intro x hx _; simp at hx
  | cons c ks ih =>
    intro x hx hnone
    cases hec : evalChunk env c with
    | error er =>
      obtain ⟨m, hm1, hm2⟩ := evalChunk_err_missing env c er hec
      exact ⟨m, by simp [evalChunks, hec, hm1], hm2⟩
    | ok s =>
      obtain ⟨c2, hc2, hxc⟩ := hx
      rcases List.mem_cons.mp hc2 with rfl | hmem
      · exfalso
        cases hcc : c2 with
        | lit s2 => rw [hcc] at hxc; simp [chunkVars] at hxc
        | expr ex =>
          rw [hcc] at hxc
          obtain ⟨er, he⟩ := evalExpr_missing env ex x (by simpa [chunkVars] using hxc) hnone
          rw [hcc] at hec
          rw [show evalChunk env (.expr ex) = .error er from by simp [evalChunk, he]] at hec
          exact Except.noConfusion hec
      · obtain ⟨m, hm1, hm2⟩ := ih x ⟨c2, hmem, hxc⟩ hnone
        exact ⟨m, by simp [evalChunks, hec, hm1], hm2⟩

/-- C7: `interpolate` substitutes the parameters into the template's
substitution expressions (`"Hello, <name>"` with `name = "World"` gives
`"Hello, World!"`, `x+y` with `x=1, y=2` gives `"3"`), unused parameter
names are ignored, and a template referencing a name absent from the
parameters raises a reference error at evaluation time. -/
theorem interpolate_contract :
    interpolate "Hello, $\x7bname\x7d!" [("name", .str "World")] = .ok "Hello, World!"
    ∧ interpolate "$\x7bx+y\x7d" [("x", .int 1), ("y", .int 2)] = .ok "3"
    ∧ interpolate "$\x7bmissing\x7d" [] = .error (.refError "missing")
    ∧ (∀ str params n v ks, scanChunks str = some ks →
        (∀ c ∈ ks, n ∉ chunkVars c) →
        interpolate str ((n, v) :: params) = interpolate str params)
    ∧ (∀ str params x ks, scanChunks str = some ks →
        (∃ c ∈ ks, x ∈ chunkVars c) → lookupVar params x = none →
        ∃ m, interpolate str params = .error (.refError m)
          ∧ lookupVar params m = none) := by
  refine ⟨by decide, by decide, by decide, ?_, ?_⟩
  · intro str params n v ks hscan hvars
    simp only [interpolate, hscan, evalChunks_unused params n v ks hvars]
  · intro str params x ks hscan hex hnone
    obtain ⟨m, hm1, hm2⟩ := evalChunks_missing params ks x hex hnone
    refine ⟨m, ?_, hm2⟩
    simp only [interpolate, hscan, hm1]

theorem interpolate_contract_witness :
    interpolate "Hello" [("unused", Val.int 5)] = interpolate "Hello" []
    ∧ (∃ m, interpolate "$\x7bq\x7d" [] = .error (.refError m)
        ∧ lookupVar [] m = none) :=
  ⟨interpolate_contract.2.2.2.1 "Hello" [] "unused" (Val.int 5) [.lit "Hello"]
      (by decide) (by decide),
    interpolate_contract.2.2.2.2 "$\x7bq\x7d" [] "q" [.expr (.var "q")]
      (by decide) (by decide) (by decide)⟩
